import Mathlib

/-!
# Verification of sux-rs bit-field vectors and access contracts

A shallow embedding, over `Nat`, of the fixed-width bit-packed vector
(`BitFieldVec` in `src/bits/bit_field_vec.rs`) and of the indexed-dictionary
and rank/select trait contracts (`src/traits/indexed_dict.rs`,
`src/traits/rank_sel.rs`) of the sux-rs library.

Machine words of the generic word type `W` are modelled as natural numbers
strictly below `2 ^ w`, where `w` stands for `W::BITS`; every Rust operation
whose result can exceed `w` bits (left shifts) is reduced modulo `2 ^ w`,
and the bitwise complement `!x` is modelled as XOR with the all-ones word.
Panics are modelled by `Option` results (`none` = panic).
-/

namespace Sux

/-- The free function `mask` of `bits/bit_field_vec.rs`:
`if bit_width == 0 { M::ZERO } else { M::MAX >> (M::BITS - bit_width) }`,
where `w` is the word bit size `M::BITS`. -/
def maskFn (w bit_width : Nat) : Nat :=
  if bit_width = 0 then 0 else (2 ^ w - 1) >>> (w - bit_width)

/-- The bitwise complement `!x` on a `w`-bit word, modelled as XOR with the
all-ones word (they agree for `x < 2 ^ w`). -/
def complW (w x : Nat) : Nat := (2 ^ w - 1) ^^^ x

/-- The struct `BitFieldVec<W, M, B>`: backing storage `data`, the bit width
of the stored values, a mask with the lowest `bit_width` bits set, and the
number of stored values `len`.  The word size `w = W::BITS` is passed to each
operation. -/
structure BitFieldVec where
  data : List Nat
  bit_width : Nat
  mask : Nat
  len : Nat
deriving DecidableEq

/-- Model of the word read `*self.data.as_ref().get_unchecked(i)`. -/
def BitFieldVec.wordAt (v : BitFieldVec) (i : Nat) : Nat := v.data.getD i 0

/-- `BitFieldVec::new(bit_width, len)`: at least one word is allocated
(`Ord::max(1, ...)`) to handle the case of bit width zero; all words start
at zero. -/
def BitFieldVec.new (w bit_width len : Nat) : BitFieldVec :=
  let n_of_words := max 1 ((len * bit_width + w - 1) / w)
  ⟨List.replicate n_of_words 0, bit_width, maskFn w bit_width, len⟩

/-- `BitFieldVec::new_atomic(bit_width, len)`: the same computation as
`new` with atomic words, each initialized to `W::ZERO`; an atomic word is
modelled by its numeric contents. -/
def BitFieldVec.new_atomic (w bit_width len : Nat) : BitFieldVec :=
  let n_of_words := max 1 ((len * bit_width + w - 1) / w)
  ⟨List.replicate n_of_words 0, bit_width, maskFn w bit_width, len⟩

/-- `BitFieldVec::from_raw_parts(data, bit_width, len)`: stores the given
fields and recomputes `mask` via the `mask` function. -/
def BitFieldVec.from_raw_parts (w : Nat) (data : List Nat) (bit_width len : Nat) :
    BitFieldVec :=
  ⟨data, bit_width, maskFn w bit_width, len⟩

/-- `BitFieldVec::into_raw_parts(self)`. -/
def BitFieldVec.into_raw_parts (v : BitFieldVec) : List Nat × Nat × Nat :=
  (v.data, v.bit_width, v.len)

/-- The `ConvertTo` implementation between backends: copies `len`,
`bit_width` and `mask` unchanged and reinterprets the same data. -/
def BitFieldVec.convert_to (v : BitFieldVec) : BitFieldVec :=
  ⟨v.data, v.bit_width, v.mask, v.len⟩

/-- `<BitFieldVec as BitFieldSlice>::get_unchecked` (plain backend):
single-word extraction when the field fits in one word, otherwise the
two-word straddling combination. -/
def BitFieldVec.get_unchecked (w : Nat) (v : BitFieldVec) (index : Nat) : Nat :=
  let pos := index * v.bit_width
  let word_index := pos / w
  let bit_index := pos % w
  if bit_index + v.bit_width ≤ w then
    (v.wordAt word_index >>> bit_index) &&& v.mask
  else
    ((v.wordAt word_index >>> bit_index) |||
      (v.wordAt (word_index + 1) <<< (w - bit_index)) % 2 ^ w) &&& v.mask

/-- `<BitFieldVec as BitFieldSliceMut>::set_unchecked` (plain backend):
single-word case clears the target bits and ORs in the shifted value; the
straddling case writes the low part into the current word and the high part
into the next word. -/
def BitFieldVec.set_unchecked (w : Nat) (v : BitFieldVec) (index value : Nat) :
    BitFieldVec :=
  let pos := index * v.bit_width
  let word_index := pos / w
  let bit_index := pos % w
  if bit_index + v.bit_width ≤ w then
    let word := v.wordAt word_index
    let word := word &&& complW w ((v.mask <<< bit_index) % 2 ^ w)
    let word := word ||| (value <<< bit_index) % 2 ^ w
    { v with data := v.data.set word_index word }
  else
    let word := v.wordAt word_index
    let word := word &&& ((1 <<< bit_index) % 2 ^ w - 1)
    let word := word ||| (value <<< bit_index) % 2 ^ w
    let data1 := v.data.set word_index word
    let word2 := data1.getD (word_index + 1) 0
    let word2 := word2 &&& complW w (v.mask >>> (w - bit_index))
    let word2 := word2 ||| value >>> (w - bit_index)
    { v with data := data1.set (word_index + 1) word2 }

/-- `<BitFieldVec as BitFieldSliceMut>::set`.  The body in
`bits/bit_field_vec.rs` invokes `panic_if_out_of_bounds!(index, self.len)`
and `panic_if_value!(value, self.mask, self.bit_width)`; those two macros are
declared in `traits/bit_field_slice.rs`, which is not among the sources at
hand, so their checks are modelled from the spec: checked setters panic when
`index >= len` or when `value & mask != value`.  `none` models the panic. -/
def BitFieldVec.set (w : Nat) (v : BitFieldVec) (index value : Nat) :
    Option BitFieldVec :=
  if v.len ≤ index then none
  else if value &&& v.mask ≠ value then none
  else some (v.set_unchecked w index value)

/-- Modelled from the spec: the checked `get` of the `BitFieldSlice` trait
(declared in `traits/bit_field_slice.rs`, not among the sources at hand)
panics when `index >= len` and otherwise delegates to `get_unchecked`. -/
def BitFieldVec.get (w : Nat) (v : BitFieldVec) (index : Nat) : Option Nat :=
  if v.len ≤ index then none else some (v.get_unchecked w index)

/-- The well-formedness invariant of a `BitFieldVec<W>` with `w = W::BITS`:
the bit width fits in a word, the mask has exactly the low `bit_width` bits
set, every stored word fits in `w` bits, `len * bit_width` bits fit in the
storage, and at least one word is allocated. -/
def BitFieldVec.Valid (w : Nat) (v : BitFieldVec) : Prop :=
  0 < w ∧ v.bit_width ≤ w ∧ v.mask = 2 ^ v.bit_width - 1 ∧
    (∀ x ∈ v.data, x < 2 ^ w) ∧ v.len * v.bit_width ≤ v.data.length * w ∧
    1 ≤ v.data.length

instance (w : Nat) (v : BitFieldVec) : Decidable (v.Valid w) := by
  unfold BitFieldVec.Valid; infer_instance

/-- Shifting the all-ones word right keeps the low bits set. -/
theorem shiftRight_two_pow_sub_one {w k : Nat} (h : k ≤ w) :
    (2 ^ w - 1) >>> k = 2 ^ (w - k) - 1 := by
  apply Nat.eq_of_testBit_eq
  intro i
  simp only [Nat.testBit_shiftRight, Nat.testBit_two_pow_sub_one]
  exact decide_eq_decide.mpr (by omega)

/-- The `mask` function always computes `2 ^ bit_width - 1`
(which is `0` for `bit_width = 0`). -/
theorem maskFn_eq {w bit_width : Nat} (h : bit_width ≤ w) :
    maskFn w bit_width = 2 ^ bit_width - 1 := by
  unfold maskFn
  split
  · simp [*]
  · rw [shiftRight_two_pow_sub_one (by omega)]
    have hww : w - (w - bit_width) = bit_width := by omega
    rw [hww]

/-- Every word of a freshly constructed vector is zero. -/
theorem new_wordAt (w bit_width len i : Nat) :
    (BitFieldVec.new w bit_width len).wordAt i = 0 := by
  unfold BitFieldVec.new BitFieldVec.wordAt
  simp only [List.getD, List.get?_eq_getElem?, List.getElem?_replicate]
  split <;> rfl

/-- C6: in every `BitFieldVec` produced by any construction path (`new`,
`new_atomic`, `from_raw_parts`, backend conversion) the `mask` field equals
exactly `(1 << bit_width) - 1` (which reduces to `0` for `bit_width = 0` and
to the all-ones word for `bit_width = w`), i.e. the mask is always the value
recomputed from `bit_width` alone. -/
theorem c6_mask_invariant (w bit_width len : Nat) (data : List Nat)
    (v : BitFieldVec) (hbw : bit_width ≤ w) :
    maskFn w bit_width = 2 ^ bit_width - 1 ∧
    (BitFieldVec.new w bit_width len).mask = 2 ^ bit_width - 1 ∧
    (BitFieldVec.new_atomic w bit_width len).mask = 2 ^ bit_width - 1 ∧
    (BitFieldVec.from_raw_parts w data bit_width len).mask = 2 ^ bit_width - 1 ∧
    v.convert_to.mask = v.mask ∧ v.convert_to.bit_width = v.bit_width := by
  refine ⟨maskFn_eq hbw, maskFn_eq hbw, maskFn_eq hbw, maskFn_eq hbw, rfl, rfl⟩

/-- Witness for C6 at `w = 8`, `bit_width = 8` (full word: mask is the
all-ones word `255`). -/
theorem c6_mask_invariant_witness :
    (8 ≤ 8) ∧
    (maskFn 8 8 = 2 ^ 8 - 1 ∧
      (BitFieldVec.new 8 8 3).mask = 2 ^ 8 - 1 ∧
      (BitFieldVec.new_atomic 8 8 3).mask = 2 ^ 8 - 1 ∧
      (BitFieldVec.from_raw_parts 8 [1, 2, 3] 8 3).mask = 2 ^ 8 - 1 ∧
      (BitFieldVec.mk [7] 8 255 1).convert_to.mask = (BitFieldVec.mk [7] 8 255 1).mask ∧
      (BitFieldVec.mk [7] 8 255 1).convert_to.bit_width =
        (BitFieldVec.mk [7] 8 255 1).bit_width) :=
  ⟨by decide, c6_mask_invariant 8 8 3 [1, 2, 3] (BitFieldVec.mk [7] 8 255 1) (by decide)⟩

/-- C5: for a vector constructed with `bit_width = 0` the mask is `0`, every
in-bounds checked `get` returns `0`, a checked `set` at an in-bounds index
panics exactly for nonzero values (it accepts only `0`), and the backing
storage still holds at least one word. -/
theorem c5_zero_width (w len i value : Nat) (hi : i < len) :
    (BitFieldVec.new w 0 len).mask = 0 ∧
    (BitFieldVec.new w 0 len).get w i = some 0 ∧
    ((BitFieldVec.new w 0 len).set w i value = none ↔ value ≠ 0) ∧
    1 ≤ (BitFieldVec.new w 0 len).data.length := by
  have hmask : (BitFieldVec.new w 0 len).mask = 0 := by
    simp [BitFieldVec.new, maskFn]
  have hlen : (BitFieldVec.new w 0 len).len = len := rfl
  refine ⟨hmask, ?_, ?_, ?_⟩
  · unfold BitFieldVec.get
    rw [hlen, if_neg (by omega)]
    simp only [BitFieldVec.get_unchecked, hmask, Nat.and_zero]
    split <;> rfl
  · unfold BitFieldVec.set
    rw [hlen, if_neg (by omega), hmask]
    constructor
    · intro h
      by_contra hv
      rw [if_neg (by simp [Nat.and_zero]; omega)] at h
      exact Option.noConfusion h
    · intro hv
      rw [if_pos (by simp [Nat.and_zero]; omega)]
  · unfold BitFieldVec.new
    simp

/-- Witness for C5 at `w = 8`, `len = 3`, `i = 1`, `value = 7`. -/
theorem c5_zero_width_witness :
    (1 < 3) ∧
    ((BitFieldVec.new 8 0 3).mask = 0 ∧
      (BitFieldVec.new 8 0 3).get 8 1 = some 0 ∧
      ((BitFieldVec.new 8 0 3).set 8 1 7 = none ↔ (7 : Nat) ≠ 0) ∧
      1 ≤ (BitFieldVec.new 8 0 3).data.length) :=
  ⟨by decide, c5_zero_width 8 3 1 7 (by decide)⟩

/-- The rank/select subject (`traits/rank_sel.rs`): a conceptual bit vector,
modelled as a list of booleans (`true` = set bit). -/
abbrev BitVec' := List Bool

/-- Modelled from the spec: `Rank::rank_unchecked`, the abstract unchecked
core of the `Rank` trait (no implementation is among the sources at hand):
the number of ones strictly before `pos`. -/
def rank_unchecked (bv : BitVec') (pos : Nat) : Nat := (bv.take pos).count true

/-- `Rank::rank` (default method): clamps `pos` to the vector length with
`pos.min(self.len())` and delegates to the unchecked core. -/
def bvRank (bv : BitVec') (pos : Nat) : Nat :=
  rank_unchecked bv (min pos bv.length)

/-- `BitCount::count`: the number of ones in the underlying bit vector. -/
def countOnes (bv : BitVec') : Nat := bv.count true

/-- Position of the `r`-th (0-indexed) occurrence of the bit `b`. -/
def selNth (b : Bool) : List Bool → Nat → Nat
  | [], _ => 0
  | x :: xs, r =>
    if x = b then
      if r = 0 then 0 else selNth b xs (r - 1) + 1
    else
      selNth b xs r + 1

/-- Modelled from the spec: `Select::select_unchecked`, the abstract
unchecked core of the `Select` trait: the position of the one of given
rank. -/
def select_unchecked (bv : BitVec') (r : Nat) : Nat := selNth true bv r

/-- Modelled from the spec: `SelectZero::select_zero_unchecked`: the
position of the zero of given rank. -/
def select_zero_unchecked (bv : BitVec') (r : Nat) : Nat := selNth false bv r

/-- `Select::select` (default method): `None` when `rank >= self.count()`,
otherwise the unchecked core. -/
def bvSelect (bv : BitVec') (r : Nat) : Option Nat :=
  if countOnes bv ≤ r then none else some (select_unchecked bv r)

/-- `SelectZero::select_zero` (default method): `None` when
`rank >= self.len() - self.count()`, otherwise the unchecked core. -/
def bvSelectZero (bv : BitVec') (r : Nat) : Option Nat :=
  if bv.length - countOnes bv ≤ r then none
  else some (select_zero_unchecked bv r)

/-- `selNth b` really finds the `r`-th occurrence of `b`: its result is in
bounds, the bit there is `b`, and exactly `r` occurrences of `b` precede
it. -/
theorem selNth_spec (b : Bool) :
    ∀ (l : List Bool) (r : Nat), r < l.count b →
      selNth b l r < l.length ∧ l.getD (selNth b l r) (!b) = b ∧
        (l.take (selNth b l r)).count b = r := by
  intro l
  induction l with
  | nil => intro r hr; simp at hr
  | cons x xs ih =>
    intro r hr
    by_cases hx : x = b
    · subst hx
      cases r with
      | zero => simp [selNth]
      | succ r' =>
        have hr' : r' < xs.count x := by
          simp [List.count_cons] at hr
          omega
        obtain ⟨h1, h2, h3⟩ := ih r' hr'
        refine ⟨by simp [selNth]; omega, ?_, ?_⟩
        · simpa [selNth] using h2
        · simp [selNth, List.count_cons, h3]
    · have hxs : r < xs.count b := by
        simpa [List.count_cons, hx] using hr
      obtain ⟨h1, h2, h3⟩ := ih r hxs
      refine ⟨by simp [selNth, hx]; omega, ?_, ?_⟩
      · simpa [selNth, hx] using h2
      · simp [selNth, hx, List.count_cons, h3]

/-- In a list of booleans the zeros are the length minus the ones. -/
theorem count_false_eq (bv : List Bool) :
    bv.count false = bv.length - bv.count true := by
  induction bv with
  | nil => rfl
  | cons x xs ih =>
    have h1 := List.count_le_length true xs
    cases x
    · have h2 : (false :: xs).count false = xs.count false + 1 := by
        simp [List.count_cons]
      have h3 : (false :: xs).count true = xs.count true := by
        simp [List.count_cons]
      rw [h2, h3, List.length_cons, ih]
      omega
    · have h2 : (true :: xs).count false = xs.count false := by
        simp [List.count_cons]
      have h3 : (true :: xs).count true = xs.count true + 1 := by
        simp [List.count_cons]
      rw [h2, h3, List.length_cons, ih]
      omega

/-- C7: `rank(pos)` equals `rank_unchecked(min(pos, len))`; in particular
`rank(pos) = rank(len)` for every `pos ≥ len`, so out-of-range positions are
clamped before reaching the unchecked core. -/
theorem c7_rank_clamping (bv : BitVec') (pos : Nat) :
    bvRank bv pos = rank_unchecked bv (min pos bv.length) ∧
    (bv.length ≤ pos → bvRank bv pos = bvRank bv bv.length) := by
  refine ⟨rfl, fun h => ?_⟩
  unfold bvRank
  rw [min_eq_right h, min_self]

/-- Witness for C7: an out-of-range position (`pos = 7` on a vector of
length 3) ranks like the length itself. -/
theorem c7_rank_clamping_witness :
    bvRank [true, false, true] 7 = bvRank [true, false, true] [true, false, true].length :=
  (c7_rank_clamping [true, false, true] 7).2 (by decide)

/-- C8: `select(rank)` is `None` iff `rank ≥ count_of_ones`, otherwise
`Some` of the position of the `rank`-th set bit (0-indexed), and
`select_zero(rank)` is `None` iff `rank ≥ len - count_of_ones`, otherwise
`Some` of the position of the `rank`-th zero. -/
theorem c8_select_none_conditions (bv : BitVec') (r : Nat) :
    (bvSelect bv r = none ↔ countOnes bv ≤ r) ∧
    (∀ p, bvSelect bv r = some p →
      p < bv.length ∧ bv.getD p false = true ∧ rank_unchecked bv p = r) ∧
    (bvSelectZero bv r = none ↔ bv.length - countOnes bv ≤ r) ∧
    (∀ p, bvSelectZero bv r = some p →
      p < bv.length ∧ bv.getD p true = false ∧ p - rank_unchecked bv p = r) := by
  refine ⟨?_, ?_, ?_, ?_⟩
  · unfold bvSelect
    split
    · simp [*]
    · simp
      omega
  · intro p hp
    have hcnt : r < countOnes bv := by
      by_contra h
      unfold bvSelect at hp
      rw [if_pos (by omega)] at hp
      exact Option.noConfusion hp
    obtain ⟨h1, h2, h3⟩ := selNth_spec true bv r hcnt
    have hpe : p = selNth true bv r := by
      unfold bvSelect at hp
      rw [if_neg (by omega)] at hp
      simpa [select_unchecked] using hp.symm
    subst hpe
    exact ⟨h1, by simpa using h2, h3⟩
  · unfold bvSelectZero
    split
    · simp [*]
    · simp
      omega
  · intro p hp
    have hcnt : r < bv.length - countOnes bv := by
      by_contra h
      unfold bvSelectZero at hp
      rw [if_pos (by omega)] at hp
      exact Option.noConfusion hp
    have hzeros : r < bv.count false := by
      rw [count_false_eq]
      exact hcnt
    obtain ⟨h1, h2, h3⟩ := selNth_spec false bv r hzeros
    have hpe : p = selNth false bv r := by
      unfold bvSelectZero at hp
      rw [if_neg (by omega)] at hp
      simpa [select_zero_unchecked] using hp.symm
    subst hpe
    refine ⟨h1, by simpa using h2, ?_⟩
    have hlen : (bv.take (selNth false bv r)).length = selNth false bv r := by
      simp [List.length_take]
      omega
    have hcf := count_false_eq (bv.take (selNth false bv r))
    have hct := List.count_le_length true (bv.take (selNth false bv r))
    unfold rank_unchecked
    omega

/-- Witness for C8 on `[true, false, true]` with rank 1: the second one is
at position 2 and the first zero at position 1. -/
theorem c8_select_none_conditions_witness :
    (bvSelect [true, false, true] 1 = some 2) ∧
    (2 < 3 ∧ [true, false, true].getD 2 false = true ∧
      rank_unchecked [true, false, true] 2 = 1) ∧
    (bvSelectZero [true, false, true] 0 = some 1) ∧
    (1 < 3 ∧ [true, false, true].getD 1 true = false ∧
      1 - rank_unchecked [true, false, true] 1 = 0) :=
  ⟨by decide,
    (c8_select_none_conditions [true, false, true] 1).2.1 2 (by decide),
    by decide,
    (c8_select_none_conditions [true, false, true] 0).2.2.2 1 (by decide)⟩

/-! ## Indexed-dictionary successor/predecessor (`traits/indexed_dict.rs`)

A monotone dictionary with `Input = Output = usize` is modelled as a list of
naturals; `IndexedDict::get` on an in-bounds index is `List.getD`. -/

/-- Modelled from the spec: `Succ::succ_unchecked::<STRICT>`, the abstract
unchecked core of the `Succ` trait (no implementation is among the sources
at hand): index and value of the least element `≥` (or `>` when `STRICT`)
the query, assuming it exists. -/
def succ_unchecked (strict : Bool) (d : List Nat) (q : Nat) : Nat × Nat :=
  let i := d.findIdx (fun v => if strict then decide (q < v) else decide (q ≤ v))
  (i, d.getD i 0)

/-- `Succ::succ` (default method): `None` if the dictionary is empty or the
query exceeds the last element (`self.get(self.len() - 1)`), otherwise the
unchecked core with `STRICT = false`. -/
def dictSucc (d : List Nat) (q : Nat) : Option (Nat × Nat) :=
  if d.isEmpty || decide (d.getD (d.length - 1) 0 < q) then none
  else some (succ_unchecked false d q)

/-- Modelled from the spec: `Pred::pred_unchecked::<STRICT>`, the abstract
unchecked core of the `Pred` trait: index and value of the greatest element
`≤` (or `<` when `STRICT`) the query, assuming it exists. -/
def pred_unchecked (strict : Bool) (d : List Nat) (q : Nat) : Nat × Nat :=
  let i :=
    (d.takeWhile (fun v => if strict then decide (v < q) else decide (v ≤ q))).length - 1
  (i, d.getD i 0)

/-- `Pred::pred_strict` (default method): `None` if the dictionary is empty
or `*value <= self.get(0)`, otherwise the unchecked core with
`STRICT = true`. -/
def dictPredStrict (d : List Nat) (q : Nat) : Option (Nat × Nat) :=
  if d.isEmpty || decide (q ≤ d.getD 0 0) then none
  else some (pred_unchecked true d q)

/-- `getD` with default `0` is `getElem` on an in-bounds index. -/
theorem getD_eq_get {l : List Nat} {n : Nat} (h : n < l.length) :
    l.getD n 0 = l[n] :=
  List.getD_eq_getElem l 0 h

/-- In a list sorted non-decreasingly, values are monotone in the index. -/
theorem sorted_getElem_le {d : List Nat} (hs : List.Sorted (· ≤ ·) d) {i j : Nat}
    (hij : i ≤ j) (hj : j < d.length) : d[i] ≤ d[j] := by
  rcases Nat.eq_or_lt_of_le hij with rfl | hlt
  · exact Nat.le_refl _
  · have := hs.rel_get_of_lt (a := ⟨i, by omega⟩) (b := ⟨j, hj⟩) (by simpa using hlt)
    simpa using this

/-- C3: on a non-empty monotonically non-decreasing dictionary, `succ(q)`
returns `None` iff `q` exceeds the last element (the check is made against
the last element), and otherwise `Some (i, v)` where `v = get(i)` is the
least element `≥ q` (and `i` its least index). -/
theorem c3_succ_contract (d : List Nat) (q : Nat) (hne : d ≠ [])
    (hs : List.Sorted (· ≤ ·) d) :
    (dictSucc d q = none ↔ d.getD (d.length - 1) 0 < q) ∧
    (∀ i v, dictSucc d q = some (i, v) →
      i < d.length ∧ v = d.getD i 0 ∧ q ≤ v ∧
        (∀ j, j < d.length → q ≤ d.getD j 0 → v ≤ d.getD j 0)) := by
  have hlen : 0 < d.length := List.length_pos.mpr hne
  have hemp : d.isEmpty = false := by
    simpa [List.isEmpty_iff] using hne
  constructor
  · unfold dictSucc
    rw [hemp]
    constructor
    · intro h
      by_contra hq
      rw [if_neg (by simpa using hq)] at h
      exact Option.noConfusion h
    · intro hq
      rw [if_pos (by simpa using hq)]
  · intro i v hsome
    have hq : ¬ d.getD (d.length - 1) 0 < q := by
      by_contra hq
      unfold dictSucc at hsome
      rw [hemp, if_pos (by simpa using hq)] at hsome
      exact Option.noConfusion hsome
    have hiv : (i, v) = succ_unchecked false d q := by
      unfold dictSucc at hsome
      rw [hemp, if_neg (by simpa using hq)] at hsome
      simpa using hsome.symm
    have hlast : d.getD (d.length - 1) 0 = d[d.length - 1] :=
      getD_eq_get (by omega)
    have hex : ∃ x ∈ d, (fun v => decide (q ≤ v)) x = true := by
      refine ⟨d[d.length - 1], List.getElem_mem _, ?_⟩
      simp only [decide_eq_true_eq]
      omega
    have hfi : d.findIdx (fun v => decide (q ≤ v)) < d.length :=
      List.findIdx_lt_length_of_exists hex
    have hie : i = d.findIdx (fun v => decide (q ≤ v)) := by
      have := congrArg Prod.fst hiv
      simpa [succ_unchecked] using this
    have hve : v = d.getD i 0 := by
      have := congrArg Prod.snd hiv
      simpa [succ_unchecked, hie] using this
    subst hie
    refine ⟨hfi, hve, ?_, ?_⟩
    · rw [hve, getD_eq_get hfi]
      have := List.findIdx_getElem (p := fun v => decide (q ≤ v)) (w := hfi)
      simpa using this
    · intro j hj hqj
      rw [hve, getD_eq_get hfi, getD_eq_get hj]
      rw [getD_eq_get hj] at hqj
      by_cases hji : j < d.findIdx (fun v => decide (q ≤ v))
      · exfalso
        have hnj : (fun v => decide (q ≤ v)) (d[j]) = false := by
          have h5 := List.not_of_lt_findIdx hji
          simpa using h5
        simp only [decide_eq_false_iff_not] at hnj
        omega
      · exact sorted_getElem_le hs (by omega) hj

/-- Witness for C3 on the dictionary `[2, 4, 4, 9]` with query `3`: the
successor is `(1, 4)`. -/
theorem c3_succ_contract_witness :
    (dictSucc [2, 4, 4, 9] 3 = some (1, 4)) ∧
    (1 < 4 ∧ (4 : Nat) = [2, 4, 4, 9].getD 1 0 ∧ 3 ≤ 4 ∧
      (∀ j, j < [2, 4, 4, 9].length → 3 ≤ [2, 4, 4, 9].getD j 0 →
        4 ≤ [2, 4, 4, 9].getD j 0)) :=
  ⟨by decide,
    (c3_succ_contract [2, 4, 4, 9] 3 (by decide) (by decide)).2 1 4 (by decide)⟩

/-- Counterexample for C4 as stated: on the non-empty sorted dictionary
`[5]` with query `5`, `pred_strict` returns `None`, yet the query is not
below the first element — the `None` condition is `q ≤ first`, not
`q < first`. -/
theorem c4_pred_strict_counterexample :
    dictPredStrict [5] 5 = none ∧ ¬ (5 : Nat) < [5].getD 0 0 ∧
      [5] ≠ ([] : List Nat) ∧ List.Sorted (· ≤ ·) [5] := by
  refine ⟨by decide, by decide, by decide, by decide⟩

/-- C4 (amended): on a non-empty monotonically non-decreasing dictionary,
`pred_strict(q)` returns `None` exactly when `q` is less than **or equal
to** the first element (equivalently, when no element is strictly below
`q`); otherwise it returns `Some (i, v)` with `v = get(i)` the greatest
element strictly below `q`. -/
theorem c4_pred_strict_amended (d : List Nat) (q : Nat) (hne : d ≠ [])
    (hs : List.Sorted (· ≤ ·) d) :
    (dictPredStrict d q = none ↔ q ≤ d.getD 0 0) ∧
    (∀ i v, dictPredStrict d q = some (i, v) →
      i < d.length ∧ v = d.getD i 0 ∧ v < q ∧
        (∀ j, j < d.length → d.getD j 0 < q → d.getD j 0 ≤ v)) := by
  have hlen : 0 < d.length := List.length_pos.mpr hne
  have hemp : d.isEmpty = false := by
    simpa [List.isEmpty_iff] using hne
  constructor
  · unfold dictPredStrict
    rw [hemp]
    constructor
    · intro h
      by_contra hq
      rw [if_neg (by simpa using hq)] at h
      exact Option.noConfusion h
    · intro hq
      rw [if_pos (by simpa using hq)]
  · intro i v hsome
    have hq : ¬ q ≤ d.getD 0 0 := by
      by_contra hq
      unfold dictPredStrict at hsome
      rw [hemp, if_pos (by simpa using hq)] at hsome
      exact Option.noConfusion hsome
    have hq0 : ¬ q ≤ d[0] := by
      rw [getD_eq_get hlen] at hq
      exact hq
    have hiv : (i, v) = pred_unchecked true d q := by
      unfold dictPredStrict at hsome
      rw [hemp, if_neg (by simpa using hq)] at hsome
      simpa using hsome.symm
    have htw : d.takeWhile (fun v => decide (v < q)) =
        d.take (d.findIdx fun v => !decide (v < q)) :=
      List.takeWhile_eq_take_findIdx_not
    set i0 := d.findIdx (fun v => !decide (v < q)) with hi0
    have hi0le : i0 ≤ d.length := List.findIdx_le_length _
    have htwlen : (d.takeWhile (fun v => decide (v < q))).length = i0 := by
      rw [htw, List.length_take]
      omega
    have hi0pos : 0 < i0 := by
      by_contra h0
      have h00 : i0 = 0 := by omega
      have hi0lt : i0 < d.length := by omega
      have hpe : (fun v => !decide (v < q)) (d[i0]) = true :=
        List.findIdx_getElem (w := hi0lt)
      simp only [h00, Bool.not_eq_true', decide_eq_false_iff_not] at hpe
      omega
    have hie : i = i0 - 1 := by
      have := congrArg Prod.fst hiv
      simpa [pred_unchecked, htwlen] using this
    have hilt : i < d.length := by omega
    have hve : v = d.getD i 0 := by
      have := congrArg Prod.snd hiv
      simpa [pred_unchecked, htwlen, hie] using this
    have hvlt : d[i] < q := by
      have h6 : (fun v => !decide (v < q)) (d[i]) = false := by
        have h7 := List.not_of_lt_findIdx (p := fun v => !decide (v < q)) (i := i) (show i < d.findIdx (fun v => !decide (v < q)) by omega)
        simpa using h7
      simpa using h6
    refine ⟨hilt, hve, ?_, ?_⟩
    · rw [hve, getD_eq_get hilt]
      exact hvlt
    · intro j hj hjq
      rw [hve, getD_eq_get hilt, getD_eq_get hj]
      rw [getD_eq_get hj] at hjq
      by_cases hji : j ≤ i
      · exact sorted_getElem_le hs hji hilt
      · exfalso
        have hi0j : i0 ≤ j := by omega
        have hi0lt : i0 < d.length := by omega
        have hpe : (fun v => !decide (v < q)) (d[i0]) = true :=
          List.findIdx_getElem (w := hi0lt)
        simp only [Bool.not_eq_true', decide_eq_false_iff_not] at hpe
        have hmono := sorted_getElem_le hs hi0j hj
        omega

/-- Witness for the amended C4 on `[2, 4, 4, 9]` with query `5`: the strict
predecessor is `(2, 4)`. -/
theorem c4_pred_strict_amended_witness :
    (dictPredStrict [2, 4, 4, 9] 5 = some (2, 4)) ∧
    (2 < 4 ∧ (4 : Nat) = [2, 4, 4, 9].getD 2 0 ∧ 4 < 5 ∧
      (∀ j, j < [2, 4, 4, 9].length → [2, 4, 4, 9].getD j 0 < 5 →
        [2, 4, 4, 9].getD j 0 ≤ 4)) :=
  ⟨by decide,
    (c4_pred_strict_amended [2, 4, 4, 9] 5 (by decide) (by decide)).2 2 4 (by decide)⟩

/-! ## Bit-level correctness of `get_unchecked`/`set_unchecked`

The storage is related to one big natural number (`bitsOf`) in which word
`k` contributes bits `[k*w, (k+1)*w)`; `get_unchecked` reads the field
`[index*bit_width, (index+1)*bit_width)` of that number and `set_unchecked`
replaces exactly that field. -/

/-- On a `k/w` and `k%w` decomposition. -/
theorem div_mod_of_decomp {w q r k : Nat} (hw : 0 < w) (hk : k = w * q + r)
    (hr : r < w) : k / w = q ∧ k % w = r := by
  subst hk
  constructor
  · rw [Nat.mul_add_div hw, Nat.div_eq_of_lt hr]
    omega
  · rw [Nat.mul_add_mod, Nat.mod_eq_of_lt hr]

/-- Bits of the complement of a `w`-bit word. -/
theorem testBit_complW {w x : Nat} (hx : x < 2 ^ w) (k : Nat) :
    (complW w x).testBit k = (decide (k < w) && !x.testBit k) := by
  have hxk : ∀ j, w ≤ j → x.testBit j = false := fun j hj =>
    Nat.testBit_lt_two_pow (lt_of_lt_of_le hx (Nat.pow_le_pow_right (by omega) hj))
  by_cases h : k < w
  · simp [complW, h]
  · simp [complW, h, hxk k (by omega)]

/-- Bits above the width of a bounded value are clear. -/
theorem testBit_of_lt_two_pow {x n j : Nat} (hx : x < 2 ^ n) (hj : n ≤ j) :
    x.testBit j = false :=
  Nat.testBit_lt_two_pow (lt_of_lt_of_le hx (Nat.pow_le_pow_right (by omega) hj))

/-- The backing words read as one big natural number: word `k` contributes
bits `[k*w, (k+1)*w)`. -/
def bitsOf (w : Nat) : List Nat → Nat
  | [] => 0
  | x :: xs => x ||| bitsOf w xs <<< w

/-- Bit `k` of the concatenated storage is bit `k % w` of word `k / w`. -/
theorem bitsOf_testBit {w : Nat} (hw : 0 < w) :
    ∀ (data : List Nat), (∀ x ∈ data, x < 2 ^ w) →
      ∀ k, (bitsOf w data).testBit k = (data.getD (k / w) 0).testBit (k % w) := by
  intro data
  induction data with
  | nil =>
    intro _ k
    simp [bitsOf]
  | cons x xs ih =>
    intro hval k
    have hx : x < 2 ^ w := hval x (List.mem_cons_self x xs)
    have hxs : ∀ y ∈ xs, y < 2 ^ w := fun y hy => hval y (List.mem_cons_of_mem x hy)
    by_cases hk : k < w
    · have hdiv : k / w = 0 := Nat.div_eq_of_lt hk
      have hmod : k % w = k := Nat.mod_eq_of_lt hk
      simp only [bitsOf, Nat.testBit_or, Nat.testBit_shiftLeft, hdiv, hmod,
        List.getD_cons_zero]
      rw [decide_eq_false (by omega : ¬ k ≥ w)]
      simp
    · have hw' : w ≤ k := by omega
      have hxbit : x.testBit k = false := testBit_of_lt_two_pow hx hw'
      have hdiv : k / w = (k - w) / w + 1 := by
        conv_lhs => rw [(by omega : k = (k - w) + w)]
        rw [Nat.add_div_right _ hw]
      have hmod : k % w = (k - w) % w := by
        conv_lhs => rw [(by omega : k = (k - w) + w)]
        rw [Nat.add_mod_right]
      simp only [bitsOf, Nat.testBit_or, Nat.testBit_shiftLeft, hxbit, Bool.false_or,
        hdiv, hmod, List.getD_cons_succ]
      rw [ih hxs (k - w)]
      simp [hw']

/-- Writing one word changes exactly that word's bit range of the
concatenated storage. -/
theorem bitsOf_set_testBit {w : Nat} (hw : 0 < w) (data : List Nat)
    (hval : ∀ x ∈ data, x < 2 ^ w) {wi : Nat} (hwi : wi < data.length)
    {word' : Nat} (hword' : word' < 2 ^ w) (k : Nat) :
    (bitsOf w (data.set wi word')).testBit k =
      if k / w = wi then word'.testBit (k % w)
      else (bitsOf w data).testBit k := by
  have hval' : ∀ x ∈ data.set wi word', x < 2 ^ w := by
    intro x hx
    rcases List.mem_or_eq_of_mem_set hx with h | h
    · exact hval x h
    · subst h
      exact hword'
  rw [bitsOf_testBit hw _ hval' k]
  by_cases h : k / w = wi
  · rw [if_pos h, h]
    simp [List.getD_eq_getElem?_getD, List.getElem?_set_self hwi]
  · rw [if_neg h, bitsOf_testBit hw _ hval k]
    simp [List.getD_eq_getElem?_getD, List.getElem?_set_ne (by omega : wi ≠ k / w)]

/-- Any word of the storage, read with the out-of-range default `0`, fits
in `w` bits. -/
theorem getD_lt {w : Nat} {data : List Nat} (hwords : ∀ x ∈ data, x < 2 ^ w)
    (i : Nat) : data.getD i 0 < 2 ^ w := by
  rcases h : data[i]? with _ | x
  · simp [h]
  · have hm : x ∈ data := List.getElem?_mem h
    simp only [List.getD_eq_getElem?_getD, h, Option.getD_some]
    exact hwords x hm

/-- Any stored word, read with the out-of-range default `0`, fits in `w`
bits. -/
theorem wordAt_lt {w : Nat} {v : BitFieldVec} (_hw : 0 < w)
    (hwords : ∀ x ∈ v.data, x < 2 ^ w) (i : Nat) : v.wordAt i < 2 ^ w :=
  getD_lt hwords i

/-- Bits of the single-word write
`word & !(mask << bit_index) | value << bit_index`: the bits
`[bit_index, bit_index + bw)` now hold `value`, the rest of the word is
unchanged. -/
theorem writeField_testBit_single {w bw bi word value m : Nat}
    (_hfit : bi + bw ≤ w) (hval : value < 2 ^ bw) (hm : m < w) :
    ((word &&& complW w (((2 ^ bw - 1) <<< bi) % 2 ^ w)) |||
        (value <<< bi) % 2 ^ w).testBit m =
      if bi ≤ m ∧ m < bi + bw then value.testBit (m - bi) else word.testBit m := by
  have harg : ((2 ^ bw - 1) <<< bi) % 2 ^ w < 2 ^ w :=
    Nat.mod_lt _ (Nat.two_pow_pos w)
  simp only [Nat.testBit_or, Nat.testBit_and, testBit_complW harg,
    Nat.testBit_mod_two_pow, Nat.testBit_shiftLeft, Nat.testBit_two_pow_sub_one]
  rw [decide_eq_true hm]
  by_cases h1 : bi ≤ m
  · rw [decide_eq_true (show m ≥ bi from h1)]
    by_cases h2 : m < bi + bw
    · rw [if_pos ⟨h1, h2⟩, decide_eq_true (show m - bi < bw by omega)]
      simp
    · rw [if_neg (by omega), decide_eq_false (show ¬ m - bi < bw by omega)]
      have hvb : value.testBit (m - bi) = false :=
        testBit_of_lt_two_pow hval (by omega)
      rw [hvb]
      simp
  · rw [decide_eq_false (show ¬ m ≥ bi from h1), if_neg (by omega)]
    simp

/-- Bits of the straddling low-word write
`word & ((1 << bit_index) - 1) | value << bit_index`: bits from
`bit_index` up hold the low part of `value`, lower bits are unchanged. -/
theorem writeField_testBit_low {w bBi word value m : Nat}
    (hbiw : bBi < w) (hm : m < w) :
    ((word &&& ((1 <<< bBi) % 2 ^ w - 1)) ||| (value <<< bBi) % 2 ^ w).testBit m =
      if bBi ≤ m then value.testBit (m - bBi) else word.testBit m := by
  have h1 : (1 <<< bBi) % 2 ^ w = 2 ^ bBi := by
    rw [Nat.shiftLeft_eq, Nat.one_mul]
    exact Nat.mod_eq_of_lt (Nat.pow_lt_pow_right (by omega) hbiw)
  rw [h1]
  simp only [Nat.testBit_or, Nat.testBit_and, Nat.testBit_mod_two_pow,
    Nat.testBit_shiftLeft, Nat.testBit_two_pow_sub_one]
  rw [decide_eq_true hm]
  by_cases h2 : bBi ≤ m
  · rw [if_pos h2, decide_eq_true (show m ≥ bBi from h2),
      decide_eq_false (show ¬ m < bBi by omega)]
    simp
  · rw [if_neg h2, decide_eq_false (show ¬ m ≥ bBi from h2),
      decide_eq_true (show m < bBi by omega)]
    simp

/-- Bits of the straddling high-word write
`word & !(mask >> (w - bit_index)) | value >> (w - bit_index)`: the low
`bi + bw - w` bits hold the high part of `value`, the rest is unchanged. -/
theorem writeField_testBit_high {w bw bi word2 value m : Nat} (hbw : bw ≤ w)
    (hbiw : bi < w) (hstr : w < bi + bw) (hval : value < 2 ^ bw) (hm : m < w) :
    ((word2 &&& complW w ((2 ^ bw - 1) >>> (w - bi))) |||
        value >>> (w - bi)).testBit m =
      if m < bi + bw - w then value.testBit (w - bi + m) else word2.testBit m := by
  rw [shiftRight_two_pow_sub_one (show w - bi ≤ bw by omega)]
  have h2p : 2 ^ (bw - (w - bi)) ≤ 2 ^ w := Nat.pow_le_pow_right (by omega) (by omega)
  have h2w : 0 < 2 ^ w := Nat.two_pow_pos w
  have harg : 2 ^ (bw - (w - bi)) - 1 < 2 ^ w := by omega
  simp only [Nat.testBit_or, Nat.testBit_and, testBit_complW harg,
    Nat.testBit_shiftRight, Nat.testBit_two_pow_sub_one]
  rw [decide_eq_true hm]
  have heq : bw - (w - bi) = bi + bw - w := by omega
  rw [heq]
  by_cases h1 : m < bi + bw - w
  · rw [if_pos h1, decide_eq_true h1]
    simp
  · rw [if_neg h1, decide_eq_false h1]
    have hvb : value.testBit (w - bi + m) = false :=
      testBit_of_lt_two_pow hval (by omega)
    rw [hvb]
    simp

/-- The value computed by a single- or low-word write fits in `w` bits. -/
theorem writeWord_lt {w a b c : Nat} (ha : a < 2 ^ w) :
    (a &&& b) ||| c % 2 ^ w < 2 ^ w :=
  Nat.or_lt_two_pow (lt_of_le_of_lt Nat.and_le_left ha) (Nat.mod_lt _ (Nat.two_pow_pos w))

/-- The value computed by the high-word write fits in `w` bits. -/
theorem writeWordHigh_lt {w bw a b value k : Nat} (ha : a < 2 ^ w)
    (hval : value < 2 ^ bw) (hbw : bw ≤ w) :
    (a &&& b) ||| value >>> k < 2 ^ w := by
  apply Nat.or_lt_two_pow (lt_of_le_of_lt Nat.and_le_left ha)
  have h1 : value >>> k ≤ value := by
    rw [Nat.shiftRight_eq_div_pow]
    exact Nat.div_le_self _ _
  have h2 : 2 ^ bw ≤ 2 ^ w := Nat.pow_le_pow_right (by omega) hbw
  omega

/-- Setting a word keeps all words below the word bound. -/
theorem words_set {w : Nat} {data : List Nat} (hwords : ∀ x ∈ data, x < 2 ^ w)
    {i x' : Nat} (hx' : x' < 2 ^ w) : ∀ x ∈ data.set i x', x < 2 ^ w := by
  intro x hx
  rcases List.mem_or_eq_of_mem_set hx with h | h
  · exact hwords x h
  · subst h
    exact hx'

/-- `set_unchecked` replaces exactly the bits
`[index*bit_width, index*bit_width + bit_width)` of the concatenated
storage with `value`, leaving every other bit unchanged. -/
theorem set_unchecked_testBit {w : Nat} {v : BitFieldVec} (hv : v.Valid w)
    {index value : Nat} (hidx : index < v.len) (hval : value < 2 ^ v.bit_width)
    (k : Nat) :
    (bitsOf w (v.set_unchecked w index value).data).testBit k =
      if index * v.bit_width ≤ k ∧ k < index * v.bit_width + v.bit_width then
        value.testBit (k - index * v.bit_width)
      else (bitsOf w v.data).testBit k := by
  obtain ⟨hw, hbw, hmask, hwords, hfits, hne⟩ := hv
  have hwlt := fun i => wordAt_lt hw hwords i
  have hposbw : index * v.bit_width + v.bit_width ≤ v.data.length * w := by
    have h1 : (index + 1) * v.bit_width ≤ v.len * v.bit_width :=
      Nat.mul_le_mul_right _ (by omega)
    have h2 : (index + 1) * v.bit_width = index * v.bit_width + v.bit_width :=
      Nat.succ_mul _ _
    omega
  simp only [BitFieldVec.set_unchecked, hmask]
  split
  case isTrue hfit =>
    set pos := index * v.bit_width with hpos
    set wi := pos / w with hwiDef
    set bi := pos % w with hbiDef
    have hbiw : bi < w := Nat.mod_lt _ hw
    have hdecomp : pos = w * wi + bi := by
      rw [hwiDef, hbiDef]
      exact (Nat.div_add_mod pos w).symm
    have hwi_lt : wi < v.data.length := by
      rcases Nat.eq_zero_or_pos v.bit_width with hb0 | hbpos
      · have hp0 : pos = 0 := by rw [hpos, hb0, Nat.mul_zero]
        rw [hwiDef, hp0, Nat.zero_div]
        omega
      · rw [hwiDef]
        exact (Nat.div_lt_iff_lt_mul hw).mpr (by omega)
    have hword1 : (v.wordAt wi &&& complW w (((2 ^ v.bit_width - 1) <<< bi) % 2 ^ w)) |||
        (value <<< bi) % 2 ^ w < 2 ^ w := writeWord_lt (hwlt wi)
    rw [bitsOf_set_testBit hw v.data hwords hwi_lt hword1 k]
    have hkm : k % w < w := Nat.mod_lt _ hw
    by_cases hk : k / w = wi
    · rw [if_pos hk]
      have hkdecomp : k = w * wi + k % w := by
        conv_lhs => rw [← Nat.div_add_mod k w]
        rw [hk]
      rw [writeField_testBit_single hfit hval hkm]
      by_cases hin : bi ≤ k % w ∧ k % w < bi + v.bit_width
      · rw [if_pos hin, if_pos (by omega), show k - pos = k % w - bi by omega]
      · rw [if_neg hin, if_neg (by omega), bitsOf_testBit hw _ hwords k, hk]
        rfl
    · rw [if_neg hk]
      have hnot : ¬ (pos ≤ k ∧ k < pos + v.bit_width) := by
        rintro ⟨hc1, hc2⟩
        exact hk (div_mod_of_decomp hw (show k = w * wi + (k - w * wi) by omega)
          (by omega)).1
      rw [if_neg hnot]
  case isFalse hfit =>
    set pos := index * v.bit_width with hpos
    set wi := pos / w with hwiDef
    set bi := pos % w with hbiDef
    have hbiw : bi < w := Nat.mod_lt _ hw
    have hdecomp : pos = w * wi + bi := by
      rw [hwiDef, hbiDef]
      exact (Nat.div_add_mod pos w).symm
    have hstr : w < bi + v.bit_width := by omega
    have hms : w * (wi + 1) = w * wi + w := Nat.mul_succ _ _
    have hcomm : v.data.length * w = w * v.data.length := Nat.mul_comm _ _
    have hwi1_lt : wi + 1 < v.data.length := by
      have h3 : w * (wi + 1) < w * v.data.length := by omega
      exact Nat.lt_of_mul_lt_mul_left h3
    have hwi_lt : wi < v.data.length := by omega
    have hkm : k % w < w := Nat.mod_lt _ hw
    have hword1 : (v.wordAt wi &&& ((1 <<< bi) % 2 ^ w - 1)) |||
        (value <<< bi) % 2 ^ w < 2 ^ w := writeWord_lt (hwlt wi)
    have hgd : (v.data.set wi ((v.wordAt wi &&& ((1 <<< bi) % 2 ^ w - 1)) |||
        (value <<< bi) % 2 ^ w)).getD (wi + 1) 0 = v.wordAt (wi + 1) := by
      unfold BitFieldVec.wordAt
      simp [List.getD_eq_getElem?_getD,
        List.getElem?_set_ne (show wi ≠ wi + 1 by omega)]
    rw [hgd]
    have hwords1 : ∀ x ∈ v.data.set wi ((v.wordAt wi &&& ((1 <<< bi) % 2 ^ w - 1)) |||
        (value <<< bi) % 2 ^ w), x < 2 ^ w := words_set hwords hword1
    have hword2 : (v.wordAt (wi + 1) &&&
        complW w ((2 ^ v.bit_width - 1) >>> (w - bi))) |||
        value >>> (w - bi) < 2 ^ w := writeWordHigh_lt (hwlt (wi + 1)) hval hbw
    rw [bitsOf_set_testBit hw _ hwords1
      (show wi + 1 < (v.data.set wi _).length by rw [List.length_set]; exact hwi1_lt)
      hword2 k]
    rw [bitsOf_set_testBit hw v.data hwords hwi_lt hword1 k]
    by_cases hk1 : k / w = wi + 1
    · rw [if_pos hk1]
      have hkdecomp : k = w * (wi + 1) + k % w := by
        conv_lhs => rw [← Nat.div_add_mod k w]
        rw [hk1]
      rw [writeField_testBit_high hbw hbiw hstr hval hkm]
      by_cases hin : k % w < bi + v.bit_width - w
      · rw [if_pos hin, if_pos (by omega), show k - pos = w - bi + k % w by omega]
      · rw [if_neg hin, if_neg (by omega), bitsOf_testBit hw _ hwords k, hk1]
        rfl
    · rw [if_neg hk1]
      by_cases hk2 : k / w = wi
      · rw [if_pos hk2]
        have hkdecomp : k = w * wi + k % w := by
          conv_lhs => rw [← Nat.div_add_mod k w]
          rw [hk2]
        rw [writeField_testBit_low hbiw hkm]
        by_cases hin : bi ≤ k % w
        · rw [if_pos hin, if_pos (by omega), show k - pos = k % w - bi by omega]
        · rw [if_neg hin, if_neg (by omega), bitsOf_testBit hw _ hwords k, hk2]
          rfl
      · rw [if_neg hk2]
        have hnot : ¬ (pos ≤ k ∧ k < pos + v.bit_width) := by
          rintro ⟨hc1, hc2⟩
          by_cases hlt : k < w * wi + w
          · exact hk2 (div_mod_of_decomp hw
              (show k = w * wi + (k - w * wi) by omega) (by omega)).1
          · exact hk1 (div_mod_of_decomp hw
              (show k = w * (wi + 1) + (k - w * (wi + 1)) by omega) (by omega)).1
        rw [if_neg hnot]

/-- `get_unchecked` reads exactly the field
`[index*bit_width, (index+1)*bit_width)` of the concatenated storage. -/
theorem get_unchecked_eq_bits {w : Nat} {v : BitFieldVec} (hv : v.Valid w)
    (index : Nat) :
    v.get_unchecked w index =
      (bitsOf w v.data >>> (index * v.bit_width)) &&& (2 ^ v.bit_width - 1) := by
  obtain ⟨hw, hbw, hmask, hwords, hfits, hne⟩ := hv
  have hwlt := fun i => wordAt_lt hw hwords i
  simp only [BitFieldVec.get_unchecked, hmask]
  set pos := index * v.bit_width with hpos
  set wi := pos / w with hwiDef
  set bi := pos % w with hbiDef
  have hbiw : bi < w := Nat.mod_lt _ hw
  have hdecomp : pos = w * wi + bi := by
    rw [hwiDef, hbiDef]
    exact (Nat.div_add_mod pos w).symm
  split
  case isTrue hfit =>
    apply Nat.eq_of_testBit_eq
    intro j
    simp only [Nat.testBit_and, Nat.testBit_shiftRight, Nat.testBit_two_pow_sub_one]
    by_cases hj : j < v.bit_width
    · obtain ⟨hd, hm⟩ := div_mod_of_decomp hw
        (show pos + j = w * wi + (bi + j) by omega) (by omega)
      rw [bitsOf_testBit hw _ hwords (pos + j), hd, hm]
      rfl
    · rw [decide_eq_false hj]
      simp
  case isFalse hfit =>
    apply Nat.eq_of_testBit_eq
    intro j
    simp only [Nat.testBit_and, Nat.testBit_or, Nat.testBit_shiftRight,
      Nat.testBit_mod_two_pow, Nat.testBit_shiftLeft, Nat.testBit_two_pow_sub_one]
    by_cases hj : j < v.bit_width
    · rw [bitsOf_testBit hw _ hwords (pos + j)]
      by_cases hjw : bi + j < w
      · obtain ⟨hd, hm⟩ := div_mod_of_decomp hw
          (show pos + j = w * wi + (bi + j) by omega) (by omega)
        rw [hd, hm, decide_eq_false (show ¬ j ≥ w - bi by omega)]
        simp only [Bool.and_false, Bool.false_and, Bool.or_false]
        rfl
      · have hms : w * (wi + 1) = w * wi + w := Nat.mul_succ _ _
        obtain ⟨hd, hm⟩ := div_mod_of_decomp hw
          (show pos + j = w * (wi + 1) + (bi + j - w) by omega) (by omega)
        rw [hd, hm]
        have hxw : (v.wordAt wi).testBit (bi + j) = false :=
          testBit_of_lt_two_pow (hwlt wi) (by omega)
        rw [hxw, decide_eq_true (show j ≥ w - bi by omega),
          decide_eq_true (show j < w by omega),
          show j - (w - bi) = bi + j - w by omega]
        simp only [Bool.false_or, Bool.true_and]
        rfl
    · rw [decide_eq_false hj]
      simp

/-- `set_unchecked` keeps the `bit_width`, `mask`, `len` fields and the
storage length. -/
theorem set_unchecked_fields {w : Nat} (v : BitFieldVec) (index value : Nat) :
    (v.set_unchecked w index value).bit_width = v.bit_width ∧
    (v.set_unchecked w index value).mask = v.mask ∧
    (v.set_unchecked w index value).len = v.len ∧
    (v.set_unchecked w index value).data.length = v.data.length := by
  simp only [BitFieldVec.set_unchecked]
  split <;> simp [List.length_set]

/-- A valid write preserves the well-formedness invariant. -/
theorem set_unchecked_valid {w : Nat} {v : BitFieldVec} (hv : v.Valid w)
    (index : Nat) {value : Nat} (hval : value < 2 ^ v.bit_width) :
    (v.set_unchecked w index value).Valid w := by
  obtain ⟨hw, hbw, hmask, hwords, hfits, hne⟩ := hv
  obtain ⟨hf1, hf2, hf3, hf4⟩ := set_unchecked_fields (w := w) v index value
  have hwlt := fun i => wordAt_lt hw hwords i
  refine ⟨hw, by omega, by rw [hf2, hf1, hmask], ?_, by rw [hf3, hf1, hf4]; exact hfits,
    by rw [hf4]; exact hne⟩
  simp only [BitFieldVec.set_unchecked]
  split
  · exact words_set hwords (writeWord_lt (hwlt _))
  · exact words_set (words_set hwords (writeWord_lt (hwlt _)))
      (writeWordHigh_lt (getD_lt (words_set hwords (writeWord_lt (hwlt _))) _)
        hval hbw)

/-- A value that fits in the field is fixed by the mask. -/
theorem and_mask_eq {bw value : Nat} (hval : value < 2 ^ bw) :
    value &&& (2 ^ bw - 1) = value := by
  apply Nat.eq_of_testBit_eq
  intro j
  simp only [Nat.testBit_and, Nat.testBit_two_pow_sub_one]
  by_cases hj : j < bw
  · simp [hj]
  · have hb : value.testBit j = false := testBit_of_lt_two_pow hval (by omega)
    simp [hj, hb]

/-- Reading back the index just written yields the written value. -/
theorem get_set_same {w : Nat} {v : BitFieldVec} (hv : v.Valid w)
    {index value : Nat} (hidx : index < v.len) (hval : value < 2 ^ v.bit_width) :
    (v.set_unchecked w index value).get_unchecked w index = value := by
  obtain ⟨hf1, hf2, hf3, hf4⟩ := set_unchecked_fields (w := w) v index value
  have hv2 := set_unchecked_valid hv index hval
  rw [get_unchecked_eq_bits hv2 index, hf1]
  apply Nat.eq_of_testBit_eq
  intro j
  simp only [Nat.testBit_and, Nat.testBit_shiftRight, Nat.testBit_two_pow_sub_one]
  rw [set_unchecked_testBit hv hidx hval (index * v.bit_width + j)]
  by_cases hj : j < v.bit_width
  · rw [if_pos ⟨by omega, by omega⟩,
      show index * v.bit_width + j - index * v.bit_width = j by omega,
      decide_eq_true hj]
    simp
  · rw [if_neg (by omega), decide_eq_false hj,
      testBit_of_lt_two_pow hval (by omega)]
    simp

/-- Writing one index leaves the value read at any other index unchanged. -/
theorem get_set_other {w : Nat} {v : BitFieldVec} (hv : v.Valid w)
    {index value j : Nat} (hidx : index < v.len) (hval : value < 2 ^ v.bit_width)
    (hne : j ≠ index) :
    (v.set_unchecked w index value).get_unchecked w j = v.get_unchecked w j := by
  obtain ⟨hf1, hf2, hf3, hf4⟩ := set_unchecked_fields (w := w) v index value
  have hv2 := set_unchecked_valid hv index hval
  rw [get_unchecked_eq_bits hv2 j, hf1, get_unchecked_eq_bits hv j]
  apply Nat.eq_of_testBit_eq
  intro m
  simp only [Nat.testBit_and, Nat.testBit_shiftRight, Nat.testBit_two_pow_sub_one]
  by_cases hm : m < v.bit_width
  · rw [set_unchecked_testBit hv hidx hval (j * v.bit_width + m)]
    have hdisj : ¬ (index * v.bit_width ≤ j * v.bit_width + m ∧
        j * v.bit_width + m < index * v.bit_width + v.bit_width) := by
      rintro ⟨h1, h2⟩
      rcases Nat.lt_or_ge j index with hji | hji
      · have hmul := Nat.mul_le_mul_right v.bit_width (show j + 1 ≤ index by omega)
        have hsm : (j + 1) * v.bit_width = j * v.bit_width + v.bit_width :=
          Nat.succ_mul _ _
        omega
      · have hmul := Nat.mul_le_mul_right v.bit_width (show index + 1 ≤ j by omega)
        have hsm : (index + 1) * v.bit_width = index * v.bit_width + v.bit_width :=
          Nat.succ_mul _ _
        omega
    rw [if_neg hdisj]
  · rw [decide_eq_false hm]
    simp

/-- A freshly constructed vector reads `0` everywhere. -/
theorem new_get_unchecked (w bit_width len index : Nat) :
    (BitFieldVec.new w bit_width len).get_unchecked w index = 0 := by
  simp only [BitFieldVec.get_unchecked, new_wordAt]
  split <;> simp

/-- A freshly constructed vector is well-formed. -/
theorem new_valid (w bit_width len : Nat) (hw : 0 < w) (hbw : bit_width ≤ w) :
    (BitFieldVec.new w bit_width len).Valid w := by
  refine ⟨hw, hbw, maskFn_eq hbw, ?_, ?_, ?_⟩
  · intro x hx
    rw [List.eq_of_mem_replicate hx]
    exact Nat.two_pow_pos w
  · simp only [BitFieldVec.new, List.length_replicate]
    have hd := Nat.div_add_mod (len * bit_width + w - 1) w
    have hm : (len * bit_width + w - 1) % w < w := Nat.mod_lt _ hw
    have hceil : len * bit_width ≤ ((len * bit_width + w - 1) / w) * w := by
      have hcomm : ((len * bit_width + w - 1) / w) * w =
          w * ((len * bit_width + w - 1) / w) := Nat.mul_comm _ _
      omega
    have h1 : (len * bit_width + w - 1) / w ≤
        max 1 ((len * bit_width + w - 1) / w) := Nat.le_max_right _ _
    have h2 := Nat.mul_le_mul_right w h1
    exact le_trans hceil h2
  · simp only [BitFieldVec.new, List.length_replicate]
    exact Nat.le_max_left _ _

/-- A checked `set` with valid index and value succeeds and performs the
unchecked write. -/
theorem set_eq_some {w : Nat} {v : BitFieldVec} (hv : v.Valid w)
    {index value : Nat} (hidx : index < v.len) (hval : value < 2 ^ v.bit_width) :
    v.set w index value = some (v.set_unchecked w index value) := by
  obtain ⟨hw, hbw, hmask, _, _, _⟩ := hv
  unfold BitFieldVec.set
  rw [if_neg (show ¬ v.len ≤ index by omega),
    if_neg (show ¬ (value &&& v.mask ≠ value) from
      fun hc => hc (by rw [hmask]; exact and_mask_eq hval))]

/-- Applying a sequence of checked `set`s; any panic aborts the whole
sequence (`none`). -/
def writeList (w : Nat) (v : BitFieldVec) : List (Nat × Nat) → Option BitFieldVec
  | [] => some v
  | p :: rest =>
    match v.set w p.1 p.2 with
    | none => none
    | some v2 => writeList w v2 rest

/-- The value most recently written at index `i` by a write sequence (`d`
if `i` was never written). -/
def lastWritten (writes : List (Nat × Nat)) (i d : Nat) : Nat :=
  writes.foldl (fun acc p => if p.1 = i then p.2 else acc) d

/-- After any sequence of valid checked writes, every index reads back the
most recently written value (or its previous content if never written). -/
theorem writeList_get {w : Nat} :
    ∀ (writes : List (Nat × Nat)) (v : BitFieldVec), v.Valid w →
      (∀ p ∈ writes, p.1 < v.len ∧ p.2 < 2 ^ v.bit_width) →
      ∀ i, i < v.len →
        (writeList w v writes).bind (fun u => u.get w i) =
          some (lastWritten writes i (v.get_unchecked w i)) := by
  intro writes
  induction writes with
  | nil =>
    intro v hv hwr i hi
    simp [writeList, lastWritten, BitFieldVec.get, show ¬ v.len ≤ i by omega]
  | cons p rest ih =>
    intro v hv hwr i hi
    obtain ⟨hp1, hp2⟩ := hwr p (List.mem_cons_self p rest)
    have hset := set_eq_some hv hp1 hp2
    obtain ⟨hf1, hf2, hf3, hf4⟩ := set_unchecked_fields (w := w) v p.1 p.2
    have hv2 := set_unchecked_valid hv p.1 hp2
    simp only [writeList, hset]
    rw [ih (v.set_unchecked w p.1 p.2) hv2
      (fun q hq => by
        rw [hf3, hf1]
        exact hwr q (List.mem_cons_of_mem p hq))
      i (by rw [hf3]; omega)]
    congr 1
    simp only [lastWritten, List.foldl_cons]
    congr 1
    by_cases hpi : p.1 = i
    · rw [if_pos hpi, ← hpi, get_set_same hv hp1 hp2]
    · rw [if_neg hpi, get_set_other hv hp1 hp2 (fun hc => hpi hc.symm)]

/-- C1: starting from a fresh vector with `bit_width ≤ w` bits per value,
after any sequence of checked `set`s (each index in bounds, each value
fitting in `bit_width` bits — including fields that straddle a word
boundary), `get(i)` returns the value most recently written at `i`, or `0`
if `i` was never written. -/
theorem c1_set_get_roundtrip (w bit_width len : Nat) (writes : List (Nat × Nat))
    (i : Nat) (hw : 0 < w) (hbw : bit_width ≤ w)
    (hwr : ∀ p ∈ writes, p.1 < len ∧ p.2 < 2 ^ bit_width) (hi : i < len) :
    (writeList w (BitFieldVec.new w bit_width len) writes).bind
        (fun u => u.get w i) = some (lastWritten writes i 0) := by
  have hv := new_valid w bit_width len hw hbw
  have h := writeList_get writes (BitFieldVec.new w bit_width len) hv
    (fun p hp => hwr p hp) i hi
  rw [h, new_get_unchecked]

/-- Witness for C1 at `w = 8`, `bit_width = 5`, `len = 3` with the write
sequence `(0,31), (1,17), (2,9), (1,4)` (index 1 straddles the byte
boundary): reading index 1 yields `4`, the last value written there. -/
theorem c1_set_get_roundtrip_witness :
    (0 < 8 ∧ 5 ≤ 8 ∧
      (∀ p ∈ [(0, 31), (1, 17), (2, 9), (1, 4)], p.1 < 3 ∧ p.2 < 2 ^ 5) ∧
      1 < 3) ∧
    (writeList 8 (BitFieldVec.new 8 5 3) [(0, 31), (1, 17), (2, 9), (1, 4)]).bind
        (fun u => u.get 8 1) = some (lastWritten [(0, 31), (1, 17), (2, 9), (1, 4)] 1 0) ∧
    lastWritten [(0, 31), (1, 17), (2, 9), (1, 4)] 1 0 = 4 :=
  ⟨⟨by decide, by decide, by decide, by decide⟩,
    c1_set_get_roundtrip 8 5 3 [(0, 31), (1, 17), (2, 9), (1, 4)] 1 (by decide)
      (by decide) (by decide) (by decide),
    by decide⟩

/-! ## Atomic backend (`BitFieldSliceAtomic` for `BitFieldVec`)

Atomic words are modelled by their numeric contents; in a single-thread
execution an atomic load returns the stored word and every
compare-and-exchange succeeds on its first attempt with the word it just
loaded, so each retry loop is one read-modify-write. -/

/-- `BitFieldSliceAtomic::get_unchecked`: the same bit arithmetic as the
plain `get_unchecked`, with each word read performed by `load(order)`. -/
def BitFieldVec.atomic_get_unchecked (w : Nat) (v : BitFieldVec) (index : Nat) :
    Nat :=
  let pos := index * v.bit_width
  let word_index := pos / w
  let bit_index := pos % w
  if bit_index + v.bit_width ≤ w then
    (v.wordAt word_index >>> bit_index) &&& v.mask
  else
    ((v.wordAt word_index >>> bit_index) |||
      (v.wordAt (word_index + 1) <<< (w - bit_index)) % 2 ^ w) &&& v.mask

/-- `BitFieldSliceAtomic::set_unchecked`: starts with
`debug_assert!(self.bit_width != W::BITS)` (`none` models the failing
assertion).  The single-word case runs one compare-and-exchange loop; the
straddling case runs one loop per word with fences in between.  Without
interference each loop succeeds immediately, with clear/OR arithmetic
identical to the plain `set_unchecked`. -/
def BitFieldVec.atomic_set_unchecked (w : Nat) (v : BitFieldVec) (index value : Nat) :
    Option BitFieldVec :=
  if v.bit_width = w then none
  else
    let pos := index * v.bit_width
    let word_index := pos / w
    let bit_index := pos % w
    if bit_index + v.bit_width ≤ w then
      let current := v.wordAt word_index
      let new := current &&& complW w ((v.mask <<< bit_index) % 2 ^ w)
      let new := new ||| (value <<< bit_index) % 2 ^ w
      some { v with data := v.data.set word_index new }
    else
      let word := v.wordAt word_index
      let new := word &&& ((1 <<< bit_index) % 2 ^ w - 1)
      let new := new ||| (value <<< bit_index) % 2 ^ w
      let data1 := v.data.set word_index new
      let word2 := data1.getD (word_index + 1) 0
      let new2 := word2 &&& complW w (v.mask >>> (w - bit_index))
      let new2 := new2 ||| value >>> (w - bit_index)
      some { v with data := data1.set (word_index + 1) new2 }

/-- Sequentially, an atomic get is the plain get. -/
theorem atomic_get_eq (w : Nat) (v : BitFieldVec) (index : Nat) :
    v.atomic_get_unchecked w index = v.get_unchecked w index := rfl

/-- Sequentially, an atomic set is the plain set guarded by the debug
assertion on the bit width. -/
theorem atomic_set_eq (w : Nat) (v : BitFieldVec) (index value : Nat) :
    v.atomic_set_unchecked w index value =
      if v.bit_width = w then none
      else some (v.set_unchecked w index value) := by
  unfold BitFieldVec.atomic_set_unchecked BitFieldVec.set_unchecked
  split
  · rfl
  · dsimp only
    split <;> rfl

/-- Counterexample for C9 as stated: with `W = u8` (`w = 8`) and
`bit_width = 8` — the full word width, legal per the data model and
accepted by `new_atomic` — the internal
`debug_assert!(self.bit_width != W::BITS)` of the atomic `set_unchecked`
fails (modelled as `none`) on the valid index `0` and fitting value `5`. -/
theorem c9_full_width_counterexample :
    (BitFieldVec.new_atomic 8 8 1).atomic_set_unchecked 8 0 5 = none ∧
    (BitFieldVec.new_atomic 8 8 1).bit_width = 8 ∧
    0 < (BitFieldVec.new_atomic 8 8 1).len ∧ 5 < 2 ^ 8 := by
  refine ⟨by decide, by decide, by decide, by decide⟩

/-- C9 (amended): the atomic `set_unchecked` succeeds with no failing
internal assertion only for `bit_width` **strictly below** the word bit
size; in that case, on a valid index with a fitting value, a subsequent
atomic get returns the value written.  At `bit_width` equal to the word
size the debug assertion fails. -/
theorem c9_atomic_set_get_amended {w : Nat} {v : BitFieldVec} (hv : v.Valid w)
    (index : Nat) {value : Nat} (hlt : v.bit_width < w) (hidx : index < v.len)
    (hval : value < 2 ^ v.bit_width) :
    (v.atomic_set_unchecked w index value).map
      (fun u => u.atomic_get_unchecked w index) = some value := by
  rw [atomic_set_eq, if_neg (by omega)]
  simp only [Option.map_some']
  rw [atomic_get_eq, get_set_same hv hidx hval]

/-- Witness for the amended C9 at `w = 8`, `bit_width = 5`: writing `17`
at index 1 of a fresh atomic vector and reading it back yields `17`. -/
theorem c9_atomic_set_get_amended_witness :
    ((BitFieldVec.new_atomic 8 5 3).Valid 8 ∧ 5 < 8 ∧ 1 < 3 ∧ 17 < 2 ^ 5) ∧
    ((BitFieldVec.new_atomic 8 5 3).atomic_set_unchecked 8 1 17).map
      (fun u => u.atomic_get_unchecked 8 1) = some 17 :=
  ⟨⟨by decide, by decide, by decide, by decide⟩,
    c9_atomic_set_get_amended (v := BitFieldVec.new_atomic 8 5 3) (by decide) 1
      (by decide) (by decide) (by decide)⟩

/-! ## Sequential iterators
(`BitFieldVecUncheckedIterator` / `BitFieldVecIterator`)

The iterator code in `bits/bit_field_vec.rs`, though generic over the word
type `W`, computes `word_index`, `bit_index` and `fill` from the constant
`usize::BITS` (64 on the reference 64-bit target), not from `W::BITS`; the
model keeps that constant faithfully as `usizeBits`. -/

/-- `usize::BITS` on the reference 64-bit target. -/
def usizeBits : Nat := 64

/-- The state of `BitFieldVecUncheckedIterator`: current word index, the
remaining unread bits of the current word (right-aligned), and the number
of valid bits in the window. -/
structure IterState where
  word_index : Nat
  window : Nat
  fill : Nat
deriving DecidableEq

/-- `BitFieldVecUncheckedIterator::new`: panics (`none`) when
`index > len`; at `index == len` it primes an empty window without touching
the storage; otherwise it loads the word holding the start position. -/
def uncheckedIterNew (_w : Nat) (v : BitFieldVec) (index : Nat) :
    Option IterState :=
  if index > v.len then none
  else
    let bit_offset := index * v.bit_width
    let word_index := bit_offset / usizeBits
    if index = v.len then some ⟨word_index, 0, 0⟩
    else
      let bit_index := bit_offset % usizeBits
      some ⟨word_index, v.wordAt word_index >>> bit_index, usizeBits - bit_index⟩

/-- `next_unchecked` of the unchecked iterator: if the window holds enough
bits, extract in place; otherwise combine the window with the next word.
Left shifts are truncated to the `w`-bit word type of the storage. -/
def nextUnchecked (w : Nat) (v : BitFieldVec) (s : IterState) : Nat × IterState :=
  if s.fill ≥ v.bit_width then
    (s.window &&& v.mask,
      ⟨s.word_index, s.window >>> v.bit_width, s.fill - v.bit_width⟩)
  else
    let word_index := s.word_index + 1
    let window := v.wordAt word_index
    let res := (s.window ||| (window <<< s.fill) % 2 ^ w) &&& v.mask
    let used := v.bit_width - s.fill
    (res, ⟨word_index, window >>> used, usizeBits - used⟩)

/-- `BitFieldVecIterator::new`: checks `index > len` (panic), then builds
the unchecked iterator (which checks again) and pairs it with the running
index. -/
def iterNew (w : Nat) (v : BitFieldVec) (index : Nat) :
    Option (IterState × Nat) :=
  if index > v.len then none
  else (uncheckedIterNew w v index).map (fun s => (s, index))

/-- `<BitFieldVecIterator as Iterator>::next`: yields through
`next_unchecked` while `index < len`, then returns `None`. -/
def iterNext (w : Nat) (v : BitFieldVec) (s : IterState) (index : Nat) :
    Option (Nat × IterState × Nat) :=
  if index < v.len then
    some ((nextUnchecked w v s).1, (nextUnchecked w v s).2, index + 1)
  else none

/-- `<BitFieldVecIterator as ExactSizeIterator>::len`: the exact number of
remaining elements. -/
def iterLen (v : BitFieldVec) (index : Nat) : Nat := v.len - index

/-- The list of the next `n` values decoded by the unchecked iterator. -/
def yieldN (w : Nat) (v : BitFieldVec) : IterState → Nat → List Nat
  | _, 0 => []
  | s, n + 1 => (nextUnchecked w v s).1 :: yieldN w v (nextUnchecked w v s).2 n

/-- The full sequence produced by the safe iterator started at `k`: the
wrapper yields exactly `len - k` values through `next_unchecked`. -/
def iterFromList (w : Nat) (v : BitFieldVec) (k : Nat) : Option (List Nat) :=
  (iterNew w v k).map (fun s => yieldN w v s.1 (v.len - k))

/-- C2 (code bug): the iterator computes its word offsets with
`usize::BITS = 64` where the word size `W::BITS` of the backing storage is
required. With `W = u16` (`w = 16`), `bit_width = 5`, `len = 4` and values
`[0, 0, 0, 17]` (stored words `[32768, 8]`), the iterator from index 0
yields `[0, 0, 0, 1]`, while indexed access yields `[0, 0, 0, 17]`; only
the reported exact size (`len - 0 = 4`) is as claimed. -/
theorem c2_iterator_word_size_bug :
    writeList 16 (BitFieldVec.new 16 5 4) [(3, 17)] =
      some (BitFieldVec.from_raw_parts 16 [32768, 8] 5 4) ∧
    iterFromList 16 (BitFieldVec.from_raw_parts 16 [32768, 8] 5 4) 0 =
      some [0, 0, 0, 1] ∧
    List.map
      (fun i => (BitFieldVec.from_raw_parts 16 [32768, 8] 5 4).get_unchecked 16 i)
      [0, 1, 2, 3] = [0, 0, 0, 17] ∧
    iterLen (BitFieldVec.from_raw_parts 16 [32768, 8] 5 4) 0 = 4 := by
  refine ⟨by decide, by decide, by decide, by decide⟩

/-- C10: constructing an iterator at start index exactly `len` is accepted
— the state is the constant `⟨len*bit_width/64, 0, 0⟩`, computed without
reading any storage word — and yields the empty sequence (the first
`next()` returns `None`); constructing at any index strictly greater than
`len` panics, in the unchecked and in the checked constructor alike. -/
theorem c10_iterator_start_boundary (w : Nat) (v : BitFieldVec) (k : Nat) :
    (uncheckedIterNew w v v.len =
      some ⟨v.len * v.bit_width / usizeBits, 0, 0⟩) ∧
    (iterNew w v v.len =
      some (⟨v.len * v.bit_width / usizeBits, 0, 0⟩, v.len)) ∧
    (∀ s, iterNext w v s v.len = none) ∧
    (iterFromList w v v.len = some []) ∧
    (v.len < k → uncheckedIterNew w v k = none ∧ iterNew w v k = none) := by
  have h1 : uncheckedIterNew w v v.len =
      some ⟨v.len * v.bit_width / usizeBits, 0, 0⟩ := by
    unfold uncheckedIterNew
    rw [if_neg (by omega), if_pos rfl]
  refine ⟨h1, ?_, ?_, ?_, ?_⟩
  · unfold iterNew
    rw [if_neg (by omega), h1]
    rfl
  · intro s
    unfold iterNext
    rw [if_neg (by omega)]
  · unfold iterFromList iterNew
    rw [if_neg (by omega), h1]
    simp [yieldN]
  · intro hk
    constructor
    · unfold uncheckedIterNew
      rw [if_pos (by omega)]
    · unfold iterNew
      rw [if_pos (by omega)]

/-- Witness for C10 on the `u16` vector with `len = 4`: start index 4 is
accepted and empty, start index 5 panics. -/
theorem c10_iterator_start_boundary_witness :
    (uncheckedIterNew 16 (BitFieldVec.from_raw_parts 16 [32768, 8] 5 4) 5 = none ∧
      iterNew 16 (BitFieldVec.from_raw_parts 16 [32768, 8] 5 4) 5 = none) ∧
    iterFromList 16 (BitFieldVec.from_raw_parts 16 [32768, 8] 5 4) 4 = some [] ∧
    4 < 5 :=
  ⟨(c10_iterator_start_boundary 16
      (BitFieldVec.from_raw_parts 16 [32768, 8] 5 4) 5).2.2.2.2 (by decide),
    (c10_iterator_start_boundary 16
      (BitFieldVec.from_raw_parts 16 [32768, 8] 5 4) 5).2.2.2.1,
    by decide⟩

/-! ### Correctness of the iterator in the `usize`/`u64` configuration

When the storage word type has `W::BITS = usize::BITS` (64), the
hard-coded constant agrees with the word size and the iterator is correct;
this pins the C2 divergence to the constant alone. -/

/-- The window/fill invariant of the unchecked iterator positioned before
`index`, for `w = usizeBits`: the consumed bits end exactly at
`index * bit_width`, and the window holds the remaining `fill` top bits of
the current word, right-aligned. -/
def IterInv (v : BitFieldVec) (index : Nat) (s : IterState) : Prop :=
  index * v.bit_width = (s.word_index + 1) * usizeBits - s.fill ∧
    s.fill ≤ usizeBits ∧
    s.window = v.wordAt s.word_index >>> (usizeBits - s.fill)

/-- The freshly constructed iterator state satisfies the invariant. -/
theorem iterInv_init (v : BitFieldVec) (index : Nat) :
    IterInv v index
      ⟨index * v.bit_width / usizeBits,
        v.wordAt (index * v.bit_width / usizeBits) >>>
          (index * v.bit_width % usizeBits),
        usizeBits - index * v.bit_width % usizeBits⟩ := by
  have hub : (0 : Nat) < usizeBits := by decide
  have hdm := Nat.div_add_mod (index * v.bit_width) usizeBits
  have hmlt : index * v.bit_width % usizeBits < usizeBits := Nat.mod_lt _ hub
  have hms : (index * v.bit_width / usizeBits + 1) * usizeBits =
      (index * v.bit_width / usizeBits) * usizeBits + usizeBits := Nat.succ_mul _ _
  have hcm : (index * v.bit_width / usizeBits) * usizeBits =
      usizeBits * (index * v.bit_width / usizeBits) := Nat.mul_comm _ _
  refine ⟨?_, ?_, ?_⟩ <;> dsimp only
  · omega
  · omega
  · rw [show usizeBits - (usizeBits - index * v.bit_width % usizeBits) =
      index * v.bit_width % usizeBits by omega]

/-- One `next_unchecked` step from an invariant state yields
`get_unchecked(index)` and re-establishes the invariant at `index + 1`
(for `w = usizeBits`). -/
theorem iterInv_step {v : BitFieldVec} (hv : v.Valid usizeBits) {index : Nat}
    (_hidx : index < v.len) {s : IterState} (hs : IterInv v index s) :
    (nextUnchecked usizeBits v s).1 = v.get_unchecked usizeBits index ∧
      IterInv v (index + 1) (nextUnchecked usizeBits v s).2 := by
  obtain ⟨hw, hbw, hmask, hwords, hfits, hne⟩ := hv
  have hwlt := fun i => wordAt_lt hw hwords i
  have hub : (0 : Nat) < usizeBits := by decide
  rcases s with ⟨wi, window, fill⟩
  obtain ⟨hpos, hfill, hwin⟩ := hs
  dsimp only at hpos hfill hwin
  have hms : (wi + 1) * usizeBits = wi * usizeBits + usizeBits := Nat.succ_mul _ _
  have hms2 : (wi + 1 + 1) * usizeBits = (wi + 1) * usizeBits + usizeBits :=
    Nat.succ_mul _ _
  have hsm : (index + 1) * v.bit_width = index * v.bit_width + v.bit_width :=
    Nat.succ_mul _ _
  have hcm2 : usizeBits * wi = wi * usizeBits := Nat.mul_comm _ _
  have hcm3 : usizeBits * (wi + 1) = (wi + 1) * usizeBits := Nat.mul_comm _ _
  unfold nextUnchecked BitFieldVec.get_unchecked
  dsimp only
  rcases Nat.eq_zero_or_pos v.bit_width with hb0 | hbpos
  · -- zero bit width: every decoded value and every get is 0
    rw [hb0, hmask, hb0]
    rw [if_pos (by omega)]
    have hm0 : (2 : Nat) ^ 0 - 1 = 0 := rfl
    rw [hm0]
    refine ⟨?_, ?_, ?_, ?_⟩ <;> dsimp only
    · rw [Nat.and_zero]
      split <;> rw [Nat.and_zero]
    · omega
    · omega
    · rw [Nat.shiftRight_zero, hwin]
      rw [show fill - 0 = fill by omega]
  · by_cases hge : fill ≥ v.bit_width
    · -- enough bits in the window
      have hfpos : 0 < fill := by omega
      obtain ⟨hd, hm⟩ := div_mod_of_decomp hub
        (show index * v.bit_width = usizeBits * wi + (usizeBits - fill) by omega)
        (by omega)
      rw [if_pos hge, hd, hm]
      rw [if_pos (show usizeBits - fill + v.bit_width ≤ usizeBits by omega)]
      refine ⟨?_, ?_, ?_, ?_⟩ <;> dsimp only
      · rw [hwin]
      · omega
      · omega
      · rw [hwin, ← Nat.shiftRight_add,
          show usizeBits - fill + v.bit_width = usizeBits - (fill - v.bit_width)
            by omega]
    · -- refill from the next word
      rw [if_neg hge]
      by_cases hf0 : fill = 0
      · subst hf0
        obtain ⟨hd, hm⟩ := div_mod_of_decomp hub
          (show index * v.bit_width = usizeBits * (wi + 1) + 0 by omega) (by omega)
        rw [hd, hm]
        rw [if_pos (by omega)]
        have hw0 : v.wordAt wi >>> usizeBits = 0 := by
          rw [Nat.shiftRight_eq_div_pow]
          exact Nat.div_eq_of_lt (hwlt wi)
        have hwin0 : window = 0 := by
          rw [hwin, Nat.sub_zero, hw0]
        simp only [Nat.sub_zero] at hpos ⊢
        refine ⟨?_, ?_, ?_, ?_⟩ <;> dsimp only
        · rw [hwin0, Nat.shiftLeft_zero, Nat.mod_eq_of_lt (hwlt (wi + 1)),
            Nat.zero_or, Nat.shiftRight_zero]
        · omega
        · omega
        · rw [show usizeBits - (usizeBits - v.bit_width) = v.bit_width by omega]
      · have hfpos : 0 < fill := by omega
        obtain ⟨hd, hm⟩ := div_mod_of_decomp hub
          (show index * v.bit_width = usizeBits * wi + (usizeBits - fill) by omega)
          (by omega)
        rw [hd, hm]
        rw [if_neg (show ¬ usizeBits - fill + v.bit_width ≤ usizeBits by omega)]
        refine ⟨?_, ?_, ?_, ?_⟩ <;> dsimp only
        · rw [hwin, show usizeBits - (usizeBits - fill) = fill by omega]
        · omega
        · omega
        · rw [show usizeBits - (usizeBits - (v.bit_width - fill)) =
            v.bit_width - fill by omega]

/-- From any invariant state, `n` iterator steps yield exactly the `n`
individually-indexed gets. -/
theorem yieldN_eq_gets {v : BitFieldVec} (hv : v.Valid usizeBits) :
    ∀ (n index : Nat) (s : IterState), IterInv v index s → index + n ≤ v.len →
      yieldN usizeBits v s n =
        List.map (fun i => v.get_unchecked usizeBits i) (List.range' index n) := by
  intro n
  induction n with
  | zero =>
    intro index s _ _
    rfl
  | succ n ih =>
    intro index s hs hle
    obtain ⟨h1, h2⟩ := iterInv_step hv (by omega) hs
    show (nextUnchecked usizeBits v s).1 ::
      yieldN usizeBits v (nextUnchecked usizeBits v s).2 n = _
    rw [h1, ih (index + 1) _ h2 (by omega), List.range'_succ]
    rfl

/-- In the `usize`/`u64` configuration (`W::BITS = usize::BITS = 64`) the
iterator started at any `k ≤ len` yields exactly
`get(k), get(k+1), …, get(len-1)` and reports exact size `len - k`: the C2
divergence is precisely the hard-coded `usize::BITS` in the generic
iterator. -/
theorem iterator_eq_gets_on_usize {v : BitFieldVec} (hv : v.Valid usizeBits)
    {k : Nat} (hk : k ≤ v.len) :
    iterFromList usizeBits v k =
      some (List.map (fun i => v.get_unchecked usizeBits i)
        (List.range' k (v.len - k))) ∧
    iterLen v k = v.len - k := by
  refine ⟨?_, rfl⟩
  unfold iterFromList iterNew
  rw [if_neg (by omega)]
  rcases Nat.eq_or_lt_of_le hk with heq | hlt
  · subst heq
    unfold uncheckedIterNew
    rw [if_neg (by omega), if_pos rfl]
    simp [yieldN, List.range']
  · unfold uncheckedIterNew
    rw [if_neg (by omega), if_neg (by omega)]
    dsimp only [Option.map_some']
    congr 1
    exact yieldN_eq_gets hv (v.len - k) k _ (iterInv_init v k) (by omega)

end Sux
